import Mathlib

/-!
Shallow embedding of the heuristic stream-grouping and video-classification
engine of the click2save repository.

Embedded source functions:
* `chrome-extension/content.js` — `categorizeVideo`, `getVideoGroupingKey`,
  `extractVideoNameFromGroupingKey`, the aggregation pass of
  `updateGroupedStreamBanner`;
* backend controller / `process.utils` — `getVideoGroupingKey`,
  `extractVideoNameFromGroupingKey`, the aggregation pass of `analyseLink`.

Strings are modelled as `List Char` internally; JavaScript regular
expressions used by the code are specialised to dedicated matching
functions with JS `String.prototype.match` / `replace` semantics
(leftmost match, greedy quantifiers).  `Date.now()` is made explicit as a
`Nat` clock parameter.
-/

namespace Click2Save

/-- JS `\w` character class (ASCII): letters, digits, underscore. -/
def isWordChar (c : Char) : Bool :=
  c.isAlphanum || c == '_'

/-- JS `[a-zA-Z0-9]` character class. -/
def isAlnumChar (c : Char) : Bool :=
  c.isAlphanum

/-- Case-insensitive prefix test (JS `i` flag on a literal). -/
def isPrefixOfCI : List Char → List Char → Bool
  | [], _ => true
  | _ :: _, [] => false
  | p :: ps, c :: cs => (p.toLower == c.toLower) && isPrefixOfCI ps cs

/-- JS `String.prototype.includes(pat)`: substring containment. -/
def containsSub (pat : List Char) : List Char → Bool
  | [] => List.isPrefixOf pat []
  | c :: rest => List.isPrefixOf pat (c :: rest) || containsSub pat rest

/-- JS `/^\d+$/.test(s)`: non-empty, all decimal digits. -/
def allDigits (s : List Char) : Bool :=
  !s.isEmpty && s.all Char.isDigit

/-- JS `s.match(/^\d+-\d+/)`: the string starts with digits, a dash,
then at least one digit. -/
def startsNumDashNum (s : List Char) : Bool :=
  let d := s.takeWhile Char.isDigit
  !d.isEmpty &&
    (match s.drop d.length with
     | '-' :: c :: _ => c.isDigit
     | _ => false)

/-- JS `s.match(/^\d+p?$/)`: pure digits, optionally followed by a final `p`. -/
def isQualityToken (s : List Char) : Bool :=
  allDigits s ||
    (match s.getLast? with
     | some 'p' => allDigits s.dropLast
     | _ => false)

/-- JS `String.prototype.trim`: strip whitespace from both ends. -/
def jsTrim (s : List Char) : List Char :=
  ((s.dropWhile Char.isWhitespace).reverse.dropWhile Char.isWhitespace).reverse

/-- JS `String.prototype.toLowerCase` (ASCII fragment). -/
def lowerAll (s : List Char) : List Char :=
  s.map Char.toLower

/-- Accumulator worker for `splitSlash`; `acc` holds the current segment
reversed. -/
def splitSlashAux : List Char → List Char → List (List Char)
  | acc, [] => if acc.isEmpty then [] else [acc.reverse]
  | acc, c :: rest =>
    if c = '/' then (if acc.isEmpty then [] else [acc.reverse]) ++ splitSlashAux [] rest
    else splitSlashAux (c :: acc) rest

/-- `s.split('/')` followed by `.filter(s => s.length > 0)`:
the non-empty `/`-separated path segments. -/
def splitSlash (s : List Char) : List (List Char) :=
  splitSlashAux [] s

/-- `segments.join('/')`. -/
def joinSlash : List (List Char) → List Char
  | [] => []
  | [s] => s
  | s :: rest => s ++ '/' :: joinSlash rest

/-!
## Model of the platform URL parser

`new URL(u)` is a browser/Node platform API (out of the repository's
source).  This models the fragment of WHATWG URL parsing the grouping
code relies on for absolute special-scheme URLs: scheme, `//`, optional
userinfo, host (lowercased), optional port, path up to `?`/`#`.
Returns `none` where `new URL` throws.
-/

structure URLParts where
  hostname : List Char
  pathname : List Char
  deriving Repr, DecidableEq

def isSchemeChar (c : Char) : Bool :=
  c.isAlphanum || c == '+' || c == '-' || c == '.'

def isForbiddenHostChar (c : Char) : Bool :=
  c == ' ' || c == '@' || c == '[' || c == ']' || c == '\\' || c == '<' ||
  c == '>' || c == '^' || c == '|' || c == '%'

/-- Model of `new URL(u)` restricted to what the grouping code reads. -/
def parseURL (u : String) : Option URLParts :=
  let s := u.toList
  let scheme := s.takeWhile (· ≠ ':')
  if scheme.isEmpty then none
  else if s.drop scheme.length = [] then none
  else if !(scheme.headD ' ').isAlpha then none
  else if !scheme.all isSchemeChar then none
  else
    match s.drop (scheme.length + 1) with
    | '/' :: '/' :: rest =>
      let authority := rest.takeWhile (fun c => c ≠ '/' && c ≠ '?' && c ≠ '#')
      let afterAuth := rest.drop authority.length
      -- strip userinfo (everything up to the last '@')
      let hostPort :=
        if authority.contains '@' then
          (authority.reverse.takeWhile (· ≠ '@')).reverse
        else authority
      let host := hostPort.takeWhile (· ≠ ':')
      let port := hostPort.drop host.length
      if host.isEmpty then none
      else if host.any isForbiddenHostChar then none
      else if !(port.drop 1).all Char.isDigit then none
      else
        let pathname :=
          match afterAuth with
          | [] => ['/']
          | '?' :: _ => ['/']
          | '#' :: _ => ['/']
          | p => p.takeWhile (fun c => c ≠ '?' && c ≠ '#')
        some ⟨lowerAll host, pathname⟩
    | _ => none

/-!
## Strategy 1: explicit video-id regexes

`\/video[_-]?(\w+)` (flag i), `\/watch[_-]?(\w+)` (flag i),
`\/v[_-]?(\w+)` (flag i), `\/(\w{8,})`, and `\/([a-zA-Z0-9]{6,})-` (note
the trailing dash), each returning capture group 1 of the leftmost
match.
-/

/-- Capture group `[_-]?(\w+)` (with regex backtracking) at the position
directly after the literal. -/
def captureIdAfter (after : List Char) : Option (List Char) :=
  match after with
  | [] => none
  | sep :: cs =>
    if (sep = '_' || sep = '-') &&
        (match cs with | c :: _ => isWordChar c | [] => false) then
      some (cs.takeWhile isWordChar)
    else
      let g := (sep :: cs).takeWhile isWordChar
      if g.isEmpty then none else some g

/-- Leftmost match of `/\/{lit}[_-]?(\w+)/i`, returning the capture. -/
def matchLitId (lit : List Char) : List Char → Option (List Char)
  | [] => none
  | c :: rest =>
    if c = '/' && isPrefixOfCI lit rest then
      match captureIdAfter (rest.drop lit.length) with
      | some g => some g
      | none => matchLitId lit rest
    else matchLitId lit rest

/-- Leftmost match of `/\/(\w{8,})/`, returning the capture. -/
def matchLongWord : List Char → Option (List Char)
  | [] => none
  | c :: rest =>
    if c = '/' then
      let g := rest.takeWhile isWordChar
      if g.length ≥ 8 then some g else matchLongWord rest
    else matchLongWord rest

/-- Leftmost match of `\/([a-zA-Z0-9]{6,})-` (trailing dash), returning
the capture. -/
def matchAlnumDash : List Char → Option (List Char)
  | [] => none
  | c :: rest =>
    if c = '/' then
      let g := rest.takeWhile isAlnumChar
      if g.length ≥ 6 && (match rest.drop g.length with
          | '-' :: _ => true | _ => false) then
        some g
      else matchAlnumDash rest
    else matchAlnumDash rest

/-- The `videoIdPatterns` loop shared verbatim by the extension and the
backend: first matching pattern wins. -/
def strategy1 (pathname : List Char) : Option (List Char) :=
  matchLitId "video".toList pathname <|>
  matchLitId "watch".toList pathname <|>
  matchLitId "v".toList pathname <|>
  matchLongWord pathname <|>
  matchAlnumDash pathname

/-!
## Strategy 2: base-path stripping

Each `.replace(/re.*$/, '')` with a `$`-anchored tail deletes everything
from the leftmost match start; `truncAtFirst P` keeps characters up to
the first suffix satisfying `P`.
-/

def truncAtFirst (P : List Char → Bool) : List Char → List Char
  | [] => []
  | c :: rest => if P (c :: rest) then [] else c :: truncAtFirst P rest

/-- A match of `\/\d+p?\/` starts here. -/
def startsQualityDir (s : List Char) : Bool :=
  match s with
  | '/' :: rest =>
    let d := rest.takeWhile Char.isDigit
    !d.isEmpty &&
      (match rest.drop d.length with
       | '/' :: _ => true
       | 'p' :: '/' :: _ => true
       | _ => false)
  | _ => false

/-- A literal-string match starts here. -/
def startsLit (lit : List Char) (s : List Char) : Bool :=
  List.isPrefixOf lit s

/-- A match of `\/\w+\.m3u8` starts here. -/
def startsAnyM3u8 (s : List Char) : Bool :=
  match s with
  | '/' :: rest =>
    let w := rest.takeWhile isWordChar
    !w.isEmpty && List.isPrefixOf ".m3u8".toList (rest.drop w.length)
  | _ => false

/-- A match of `\/seg-\d+` starts here. -/
def startsSegNum (s : List Char) : Bool :=
  startsLit "/seg-".toList s &&
    (match s.drop 5 with | c :: _ => c.isDigit | [] => false)

/-- A match of `\/\d+-\d+` starts here. -/
def startsNumDashNumSlash (s : List Char) : Bool :=
  match s with
  | '/' :: rest => startsNumDashNum rest
  | _ => false

/-- The `basePath` chain of `.replace` calls (identical in both copies of
`getVideoGroupingKey`), applied in source order. -/
def stripBasePath (pathname : List Char) : List Char :=
  let p1 := truncAtFirst startsQualityDir pathname
  let p2 := truncAtFirst (startsLit "/playlist.m3u8".toList) p1
  let p3 := truncAtFirst (startsLit "/index.m3u8".toList) p2
  let p4 := truncAtFirst (startsLit "/master.m3u8".toList) p3
  let p5 := truncAtFirst startsAnyM3u8 p4
  let p6 := truncAtFirst (startsLit "/chunklist".toList) p5
  let p7 := truncAtFirst startsSegNum p6
  truncAtFirst startsNumDashNumSlash p7

/-!
## Strategy 3: parent-directory walk
-/

/-- Index of the last element satisfying `good` (the backwards walk of
strategy 3 returns at the largest qualifying index). -/
def lastGoodIdx (good : List Char → Bool) : List (List Char) → Option Nat
  | [] => none
  | s :: rest =>
    match lastGoodIdx good rest with
    | some j => some (j + 1)
    | none => if good s then some 0 else none

/-- Extension strategy 3 skip list: file-like, numeric, `playlist`,
`chunklist`, `seg-`, `^\d+-\d+` segments. -/
def extSkipSegment (s : List Char) : Bool :=
  s.contains '.' || allDigits s || containsSub "playlist".toList s ||
  containsSub "chunklist".toList s || containsSub "seg-".toList s ||
  startsNumDashNum s

/-- Extension strategy 3: a segment produces the key iff it is not
skipped and longer than 3. -/
def goodSegExt (s : List Char) : Bool :=
  !extSkipSegment s && s.length > 3

/-- Backend strategy 3 condition (no `seg-` and no `\d+-\d+` checks). -/
def goodSegBackend (s : List Char) : Bool :=
  !(s.contains '.') && !allDigits s && !containsSub "playlist".toList s &&
  !containsSub "chunklist".toList s && s.length > 3

/-!
## Strategy 4 (extension only): timestamp / date grouping over the full URL
-/

/-- Leftmost match of `/(\d{10,13})/`, returning the first 8 captured
characters (`match[1].substring(0, 8)`). -/
def findTimestamp10 : List Char → Option (List Char)
  | [] => none
  | c :: rest =>
    if ((c :: rest).take 10).length = 10 &&
        ((c :: rest).take 10).all Char.isDigit then
      some ((c :: rest).take 8)
    else findTimestamp10 rest

/-- Leftmost match of `/(\d{4}-\d{2}-\d{2})/`, returning the capture. -/
def findDate : List Char → Option (List Char)
  | c1 :: c2 :: c3 :: c4 :: '-' :: c5 :: c6 :: '-' :: c7 :: c8 :: rest =>
    if c1.isDigit && c2.isDigit && c3.isDigit && c4.isDigit &&
        c5.isDigit && c6.isDigit && c7.isDigit && c8.isDigit then
      some [c1, c2, c3, c4, '-', c5, c6, '-', c7, c8]
    else
      findDate (c2 :: c3 :: c4 :: '-' :: c5 :: c6 :: '-' :: c7 :: c8 :: rest)
  | _ :: rest => findDate rest
  | [] => none

/-!
## The two grouping-key functions
-/

/-- `try` body of the extension's `getVideoGroupingKey`
(`content.js:1379`), for a present, non-empty `stream.src`.  `none`
models the path where `new URL` throws. -/
def extKeyCore (u : String) : Option (List Char) :=
  (parseURL u).map fun parts =>
    let pathname := parts.pathname
    let domain := parts.hostname
    match strategy1 pathname with
    | some vid => domain ++ '-' :: vid
    | none =>
      let basePath := stripBasePath pathname
      if !basePath.isEmpty && basePath ≠ ['/'] && basePath.length > 5 then
        domain ++ basePath
      else
        let segments := splitSlash pathname
        let s3 :=
          if segments.length ≥ 2 then
            (lastGoodIdx goodSegExt segments).map fun i =>
              domain ++ '-' :: joinSlash (segments.take (i + 1))
          else none
        match s3 with
        | some k => k
        | none =>
          match findTimestamp10 u.toList with
          | some t8 => domain ++ '-' :: t8
          | none =>
            match findDate u.toList with
            | some d => domain ++ '-' :: d
            | none =>
              match segments with
              | [] => domain
              | s0 :: _ => domain ++ '-' :: s0

/-- One observed stream as held in `detectedVideos` (fields read by the
grouping pass). -/
structure ExtStream where
  src : Option String
  domain : String
  timestamp : Option Nat
  deriving Repr, DecidableEq

/-- Extension `getVideoGroupingKey(stream)` (`content.js:1379-1466`).
`now` is the value `Date.now()` would return on the catch path. -/
def getVideoGroupingKey (now : Nat) (stream : Option ExtStream) : String :=
  match stream with
  | none => "unknown-stream"
  | some s =>
    match s.src with
    | none => "unknown-stream"
    | some u =>
      if u = "" then "unknown-stream"
      else
        match extKeyCore u with
        | some k => String.mk k
        | none => "unknown-" ++ toString now

/-- `try` body of the backend's `getVideoGroupingKey` (process utils):
same strategies 1-2, reduced strategy 3, no strategy 4. -/
def backendKeyCore (u : String) : Option (List Char) :=
  (parseURL u).map fun parts =>
    let pathname := parts.pathname
    let domain := parts.hostname
    match strategy1 pathname with
    | some vid => domain ++ '-' :: vid
    | none =>
      let basePath := stripBasePath pathname
      if !basePath.isEmpty && basePath ≠ ['/'] && basePath.length > 5 then
        domain ++ basePath
      else
        let segments := splitSlash pathname
        match lastGoodIdx goodSegBackend segments with
        | some i => domain ++ '-' :: joinSlash (segments.take (i + 1))
        | none =>
          match segments with
          | [] => domain
          | s0 :: _ => domain ++ '-' :: s0

/-- Backend `getVideoGroupingKey(url)` (arrow function on the `url`
string).  `now` is the value `Date.now()` would return on the catch
path. -/
def getVideoGroupingKeyB (now : Nat) (url : String) : String :=
  match backendKeyCore url with
  | some k => String.mk k
  | none => "unknown-" ++ toString now

/-!
## Display-name extraction
-/

/-- `groupingKey.replace` of the anchored pattern `^[^-]+-` with the
empty string: strip the leading run of non-dash characters and the
first dash, when present. -/
def stripDomainDash (s : List Char) : List Char :=
  let nd := s.takeWhile (· ≠ '-')
  if nd.isEmpty then s
  else
    match s.drop nd.length with
    | '-' :: rest => rest
    | _ => s

/-- `s.replace(/[_-]/g, ' ')`. -/
def spaceUnderDash (s : List Char) : List Char :=
  s.map fun c => if c = '_' || c = '-' then ' ' else c

/-- A match of `\.(mp4|webm|m3u8)` (flag i) starts here. -/
def startsMediaExt (s : List Char) : Bool :=
  match s with
  | '.' :: rest =>
    isPrefixOfCI "mp4".toList rest || isPrefixOfCI "webm".toList rest ||
    isPrefixOfCI "m3u8".toList rest
  | _ => false

/-- The cleanup chain `.replace(/[_-]/g, ' ')` then
`.replace(/\.(mp4|webm|m3u8).*$/i, '')` then `.trim()`. -/
def cleanSegment (s : List Char) : List Char :=
  jsTrim (truncAtFirst startsMediaExt (spaceUnderDash s))

/-- Technical segments skipped by the name-extraction loop (identical in
both copies). -/
def nameSkipSegment (s : List Char) : Bool :=
  containsSub ".m3u8".toList s || containsSub "playlist".toList s ||
  containsSub "chunklist".toList s || isQualityToken s ||
  containsSub "master".toList s || containsSub "index".toList s

/-- Extension name loop over the first stream's path segments: skip
technical segments; a segment longer than 3 and not purely numeric is
cleaned and returned if the cleaned text is non-empty. -/
def extNameFromSegments : List (List Char) → Option (List Char)
  | [] => none
  | s :: rest =>
    if nameSkipSegment s then extNameFromSegments rest
    else if s.length > 3 && !allDigits s then
      let c := cleanSegment s
      if c.isEmpty then extNameFromSegments rest else some c
    else extNameFromSegments rest

/-- Backend name loop: as the extension's, but the cleaned segment is
returned without the non-emptiness check. -/
def backendNameFromSegments : List (List Char) → Option (List Char)
  | [] => none
  | s :: rest =>
    if nameSkipSegment s then backendNameFromSegments rest
    else if s.length > 3 && !allDigits s then some (cleanSegment s)
    else backendNameFromSegments rest

/-- Path segments of `new URL(stream.src)`, `[]` when parsing throws
(including an absent `src`, where `new URL(undefined)` throws). -/
def extStreamSegments (s : ExtStream) : List (List Char) :=
  match s.src with
  | none => []
  | some u =>
    match parseURL u with
    | some parts => splitSlash parts.pathname
    | none => []

/-- Extension `extractVideoNameFromGroupingKey(groupingKey, streams)`
(`content.js:1469-1524`). -/
def extractVideoNameFromGroupingKey (groupingKey : String)
    (streams : List ExtStream) : String :=
  let keyWithoutDomain := stripDomainDash groupingKey.toList
  let pathSegments := streams.map extStreamSegments
  let fromSegs :=
    match pathSegments with
    | [] => none
    | first :: _ => extNameFromSegments first
  match fromSegs with
  | some n => String.mk n
  | none =>
    let cleanKey := cleanSegment keyWithoutDomain
    if cleanKey.isEmpty then "Video Stream" else String.mk cleanKey

/-- One entry of the backend's `m3u8Urls` array (fields the grouping
reads). -/
structure BackendStream where
  url : String
  domain : String
  deriving Repr, DecidableEq

/-- Path segments of `new URL(stream.url)`, `[]` when parsing throws. -/
def backendStreamSegments (s : BackendStream) : List (List Char) :=
  match parseURL s.url with
  | some parts => splitSlash parts.pathname
  | none => []

/-- Backend `extractVideoNameFromGroupingKey(groupingKey, streams)`. -/
def extractVideoNameFromGroupingKeyB (groupingKey : String)
    (streams : List BackendStream) : String :=
  let keyWithoutDomain := stripDomainDash groupingKey.toList
  let fromSegs :=
    match streams with
    | [] => none
    | first :: _ => backendNameFromSegments (backendStreamSegments first)
  match fromSegs with
  | some n => String.mk n
  | none =>
    let cleanKey := cleanSegment keyWithoutDomain
    if cleanKey.isEmpty then "Video Stream" else String.mk cleanKey

/-!
## Aggregation passes
-/

/-- A `VideoGroup` as built by `updateGroupedStreamBanner`; `name` is
`null` until assigned after grouping. -/
structure VideoGroup where
  groupingKey : String
  name : Option String
  domain : String
  streams : List ExtStream
  firstSeen : Nat
  deriving Repr, DecidableEq

/-- `stream.timestamp || Date.now()` (a `0` timestamp is falsy). -/
def firstSeenOf (clockVal : Nat) (t : Option Nat) : Nat :=
  match t with
  | some n => if n = 0 then clockVal else n
  | none => clockVal

/-- `videoGroups.get/set` step of the extension's forEach: append the
stream to its group, creating the group at the end on first sight
(JS `Map` preserves insertion order). -/
def addToGroups (key : String) (s : ExtStream) (clockVal : Nat) :
    List VideoGroup → List VideoGroup
  | [] => [⟨key, none, s.domain, [s], firstSeenOf clockVal s.timestamp⟩]
  | g :: rest =>
    if g.groupingKey = key then { g with streams := g.streams ++ [s] } :: rest
    else g :: addToGroups key s clockVal rest

/-- The extension's grouping forEach, with `i` the running index and the
clock supplying `Date.now()` per iteration. -/
def extGroupPass (clock : Nat → Nat) : Nat → List ExtStream →
    List VideoGroup → List VideoGroup
  | _, [], acc => acc
  | i, s :: rest, acc =>
    extGroupPass clock (i + 1) rest
      (addToGroups (getVideoGroupingKey (clock i) (some s)) s (clock i) acc)

/-- Post-grouping name assignment of the extension. -/
def assignName (g : VideoGroup) : VideoGroup :=
  { g with name := some (extractVideoNameFromGroupingKey g.groupingKey g.streams) }

/-- Stable insertion of a group in front of the first group with at most
as many streams (the comparator `(a, b) => b.streams.length -
a.streams.length` under a stable `Array.prototype.sort`). -/
def insertGroup (g : VideoGroup) : List VideoGroup → List VideoGroup
  | [] => [g]
  | h :: t =>
    if h.streams.length > g.streams.length then h :: insertGroup g t
    else g :: h :: t

/-- Stable descending-by-count sort modelling
`.sort((a, b) => b.streams.length - a.streams.length)`. -/
def sortGroups : List VideoGroup → List VideoGroup
  | [] => []
  | h :: t => insertGroup h (sortGroups t)

/-- Aggregation pass of `updateGroupedStreamBanner`
(`content.js:1533-1579`): group, assign names, sort by stream count. -/
def extAggregate (clock : Nat → Nat) (streams : List ExtStream) :
    List VideoGroup :=
  sortGroups ((extGroupPass clock 0 streams []).map assignName)

/-- A backend `VideoGroup` (no `firstSeen` field in `analyseLink`). -/
structure BackendGroup where
  groupingKey : String
  name : Option String
  domain : String
  streams : List BackendStream
  deriving Repr, DecidableEq

/-- Backend group insertion step (as `addToGroups`). -/
def addToGroupsB (key : String) (s : BackendStream) :
    List BackendGroup → List BackendGroup
  | [] => [⟨key, none, s.domain, [s]⟩]
  | g :: rest =>
    if g.groupingKey = key then { g with streams := g.streams ++ [s] } :: rest
    else g :: addToGroupsB key s rest

/-- The backend's grouping forEach over `m3u8Urls`. -/
def backendGroupPass (clock : Nat → Nat) : Nat → List BackendStream →
    List BackendGroup → List BackendGroup
  | _, [], acc => acc
  | i, s :: rest, acc =>
    backendGroupPass clock (i + 1) rest
      (addToGroupsB (getVideoGroupingKeyB (clock i) s.url) s acc)

/-- Post-grouping name assignment of the backend. -/
def assignNameB (g : BackendGroup) : BackendGroup :=
  { g with name := some (extractVideoNameFromGroupingKeyB g.groupingKey g.streams) }

/-- Aggregation pass of `analyseLink`: group, assign names, then
`Array.from(videoGroups.values())` — the backend does not sort. -/
def backendAggregate (clock : Nat → Nat) (streams : List BackendStream) :
    List BackendGroup :=
  (backendGroupPass clock 0 streams []).map assignNameB

/-!
## DOM video categorization (`categorizeVideo`, `content.js:322-358`)
-/

structure DomRect where
  width : ℚ
  height : ℚ
  left : ℚ
  top : ℚ
  deriving Repr, DecidableEq

structure VideoMetadata where
  isVisible : Bool
  hasControls : Bool
  isPlaying : Bool
  isAutoplay : Bool
  deriving Repr, DecidableEq

structure DomElement where
  rect : DomRect
  className : String
  id : String
  parentClassName : String
  deriving Repr, DecidableEq

structure Viewport where
  innerWidth : ℚ
  innerHeight : ℚ
  deriving Repr, DecidableEq

def adKeywords : List (List Char) :=
  ["ad".toList, "advertisement".toList, "sponsored".toList,
   "promo".toList, "banner".toList]

/-- `hasAdKeywords(element)`: keyword scan over class, id, and parent
class, lowercased. -/
def hasAdKeywords (el : DomElement) : Bool :=
  let textContent :=
    lowerAll ((el.className ++ " " ++ el.id ++ " " ++ el.parentClassName).toList)
  adKeywords.any fun kw => containsSub kw textContent

/-- `isCenterOfViewport(rect)`. -/
def isCenterOfViewport (vp : Viewport) (rect : DomRect) : Bool :=
  let videoCenterX := rect.left + rect.width / 2
  let videoCenterY := rect.top + rect.height / 2
  decide (videoCenterX > vp.innerWidth * (0.2 : ℚ) ∧
    videoCenterX < vp.innerWidth * (0.8 : ℚ) ∧
    videoCenterY > vp.innerHeight * (0.1 : ℚ) ∧
    videoCenterY < vp.innerHeight * (0.9 : ℚ))

/-- `categorizeVideo(element, metadata)`; a null element means a
synthetic network-captured entry. -/
def categorizeVideo (vp : Viewport) (element : Option DomElement)
    (metadata : VideoMetadata) : String :=
  match element with
  | none => "captured"
  | some el =>
    let rect := el.rect
    let isLargeVideo := decide (rect.width > 400 ∧ rect.height > 200)
    let hasControls := metadata.hasControls
    let isCurrentlyPlaying := metadata.isPlaying
    let isCenter := isCenterOfViewport vp rect
    let isSmallVideo := decide (rect.width < 300 ∨ rect.height < 150)
    let adKw := hasAdKeywords el
    let isAutoplayWithoutControls := metadata.isAutoplay && !metadata.hasControls
    let isBackground := decide (rect.width < 100 ∨ rect.height < 100)
    let isHidden :=
      !metadata.isVisible || decide (rect.width = 0) || decide (rect.height = 0)
    if isHidden || isBackground then "hidden"
    else if adKw || (isAutoplayWithoutControls && isSmallVideo) then "advertisement"
    else if isSmallVideo && !hasControls then "thumbnail"
    else if isCurrentlyPlaying && isLargeVideo && hasControls then "main"
    else if isCenter && isLargeVideo then "main"
    else if isLargeVideo && hasControls then "content"
    else "secondary"

/-!
## Derived notions used by the verification
-/

/-- The per-iteration data of the extension's forEach: grouping key,
`Date.now()` value, stream. -/
def extKeyed (clock : Nat → Nat) : Nat → List ExtStream →
    List (String × Nat × ExtStream)
  | _, [] => []
  | i, s :: rest =>
    (getVideoGroupingKey (clock i) (some s), clock i, s) ::
      extKeyed clock (i + 1) rest

/-- `extGroupPass` in fold form over the keyed list. -/
def foldAddExt : List (String × Nat × ExtStream) → List VideoGroup →
    List VideoGroup
  | [], acc => acc
  | e :: rest, acc => foldAddExt rest (addToGroups e.1 e.2.2 e.2.1 acc)

/-- The input streams carrying key `k`, in discovery order. -/
def streamsWithKey (k : String) (ks : List (String × Nat × ExtStream)) :
    List ExtStream :=
  (ks.filter fun e => e.1 == k).map fun e => e.2.2

/-- The update applied by `addToGroups` to a matching group. -/
def pushStream (k : String) (s : ExtStream) (g : VideoGroup) : VideoGroup :=
  if g.groupingKey = k then { g with streams := g.streams ++ [s] } else g

/-- Grouping invariant: distinct keys, per-group streams are exactly the
matching input streams in order, and every processed key owns a group. -/
def GroupInv (past : List (String × Nat × ExtStream)) (gs : List VideoGroup) :
    Prop :=
  (gs.map fun g => g.groupingKey).Nodup ∧
  (∀ g ∈ gs, g.streams = streamsWithKey g.groupingKey past) ∧
  (∀ e ∈ past, e.1 ∈ gs.map fun g => g.groupingKey)

/-- Per-iteration data of the backend's forEach: grouping key and
stream. -/
def backendKeyed (clock : Nat → Nat) : Nat → List BackendStream →
    List (String × BackendStream)
  | _, [] => []
  | i, s :: rest =>
    (getVideoGroupingKeyB (clock i) s.url, s) :: backendKeyed clock (i + 1) rest

/-- `backendGroupPass` in fold form over the keyed list. -/
def foldAddB : List (String × BackendStream) → List BackendGroup →
    List BackendGroup
  | [], acc => acc
  | e :: rest, acc => foldAddB rest (addToGroupsB e.1 e.2 acc)

/-- The backend input streams carrying key `k`, in request order. -/
def streamsWithKeyB (k : String) (ks : List (String × BackendStream)) :
    List BackendStream :=
  (ks.filter fun e => e.1 == k).map fun e => e.2

/-- The update applied by `addToGroupsB` to a matching group. -/
def pushStreamB (k : String) (s : BackendStream) (g : BackendGroup) :
    BackendGroup :=
  if g.groupingKey = k then { g with streams := g.streams ++ [s] } else g

/-- Backend grouping invariant, as `GroupInv`. -/
def GroupInvB (past : List (String × BackendStream)) (gs : List BackendGroup) :
    Prop :=
  (gs.map fun g => g.groupingKey).Nodup ∧
  (∀ g ∈ gs, g.streams = streamsWithKeyB g.groupingKey past) ∧
  (∀ e ∈ past, e.1 ∈ gs.map fun g => g.groupingKey)

/-- Streams whose grouping key cannot depend on the clock: absent `src`,
empty `src`, or a `src` the URL parser accepts. -/
def WellKeyed (s : ExtStream) : Prop :=
  match s.src with
  | none => True
  | some u => u = "" ∨ parseURL u ≠ none

/-- The fields of a `VideoGroup` the banner displays (everything except
the clock-tainted `firstSeen`). -/
def groupSig (g : VideoGroup) : String × Option String × String × List ExtStream :=
  (g.groupingKey, g.name, g.domain, g.streams)

/-- Key and stream of a keyed entry (dropping the `Date.now()` sample). -/
def keyedProj (e : String × Nat × ExtStream) : String × ExtStream :=
  (e.1, e.2.2)

/-!
## Concrete inputs used in the closed statements
-/

def exStreamA : ExtStream := ⟨some "https://a.com/aaaaaaaa/master.m3u8", "a.com", some 10⟩
def exStreamB1 : ExtStream := ⟨some "https://a.com/bbbbbbbb/720p/x.m3u8", "a.com", some 11⟩
def exStreamB2 : ExtStream := ⟨some "https://a.com/bbbbbbbb/1080p/x.m3u8", "a.com", some 12⟩
def exStreamC1 : ExtStream := ⟨some "https://a.com/cccccccc/720p/x.m3u8", "a.com", some 13⟩
def exStreamB3 : ExtStream := ⟨some "https://a.com/bbbbbbbb/480p/x.m3u8", "a.com", some 14⟩
def exStreamC2 : ExtStream := ⟨some "https://a.com/cccccccc/1080p/x.m3u8", "a.com", some 15⟩

/-- Input whose groups have stream counts `[1, 3, 2]` in first-seen order. -/
def exSortStreams : List ExtStream :=
  [exStreamA, exStreamB1, exStreamB2, exStreamC1, exStreamB3, exStreamC2]

/-- The same input as `exSortStreams`, shaped as the backend receives it. -/
def exSortStreamsB : List BackendStream :=
  [⟨"https://a.com/aaaaaaaa/master.m3u8", "a.com"⟩,
   ⟨"https://a.com/bbbbbbbb/720p/x.m3u8", "a.com"⟩,
   ⟨"https://a.com/bbbbbbbb/1080p/x.m3u8", "a.com"⟩,
   ⟨"https://a.com/cccccccc/720p/x.m3u8", "a.com"⟩,
   ⟨"https://a.com/bbbbbbbb/480p/x.m3u8", "a.com"⟩,
   ⟨"https://a.com/cccccccc/1080p/x.m3u8", "a.com"⟩]

/-- A malformed-URL stream next to a well-formed one (the spec's
malformed-URL isolation example). -/
def exIsoMalformed : ExtStream := ⟨some "not a url", "x", some 1⟩

def exIsoWellFormed : ExtStream :=
  ⟨some "https://cdn.example.com/abc12345/master.m3u8", "cdn.example.com", some 2⟩

def exIsoStreams : List ExtStream := [exIsoMalformed, exIsoWellFormed]

end Click2Save

namespace Click2Save

/-!
## Lemmas about the stable sort
-/

theorem insertGroup_perm (g : VideoGroup) (l : List VideoGroup) :
    (insertGroup g l).Perm (g :: l) := by
  induction l with
  | nil => simp [insertGroup]
  | cons h t ih =>
    simp only [insertGroup]
    split
    · exact (ih.cons h).trans (List.Perm.swap g h t)
    · exact List.Perm.refl _

theorem sortGroups_perm (l : List VideoGroup) : (sortGroups l).Perm l := by
  induction l with
  | nil => exact List.Perm.refl _
  | cons h t ih =>
    exact (insertGroup_perm h (sortGroups t)).trans (ih.cons h)

theorem insertGroup_pairwise (g : VideoGroup) (l : List VideoGroup)
    (hl : l.Pairwise fun a b => b.streams.length ≤ a.streams.length) :
    (insertGroup g l).Pairwise fun a b => b.streams.length ≤ a.streams.length := by
  induction l with
  | nil => simp [insertGroup]
  | cons h t ih =>
    rcases List.pairwise_cons.mp hl with ⟨hh, ht⟩
    simp only [insertGroup]
    split
    · rename_i hgt
      refine List.pairwise_cons.mpr ⟨?_, ih ht⟩
      intro x hx
      have hx' := (insertGroup_perm g t).mem_iff.mp hx
      rcases List.mem_cons.mp hx' with rfl | hxt
      · exact Nat.le_of_lt hgt
      · exact hh x hxt
    · rename_i hle
      refine List.pairwise_cons.mpr ⟨?_, hl⟩
      intro x hx
      rcases List.mem_cons.mp hx with rfl | hxt
      · exact Nat.le_of_not_lt hle
      · exact Nat.le_trans (hh x hxt) (Nat.le_of_not_lt hle)

theorem sortGroups_pairwise (l : List VideoGroup) :
    (sortGroups l).Pairwise fun a b => b.streams.length ≤ a.streams.length := by
  induction l with
  | nil => simp [sortGroups]
  | cons h t ih => exact insertGroup_pairwise h (sortGroups t) ih

theorem insertGroup_filter (g : VideoGroup) (l : List VideoGroup) (n : Nat) :
    (insertGroup g l).filter (fun x => x.streams.length == n) =
      if g.streams.length = n then
        g :: l.filter (fun x => x.streams.length == n)
      else l.filter (fun x => x.streams.length == n) := by
  induction l with
  | nil =>
    by_cases hg : g.streams.length = n <;>
      simp [insertGroup, List.filter_cons, hg]
  | cons h t ih =>
    simp only [insertGroup]
    split
    · rename_i hgt
      by_cases hg : g.streams.length = n
      · have hh : ¬(h.streams.length = n) := by omega
        simp [List.filter_cons, hg, hh, ih]
      · simp [List.filter_cons, hg, ih]
    · simp [List.filter_cons, ih]

theorem sortGroups_filter (l : List VideoGroup) (n : Nat) :
    (sortGroups l).filter (fun x => x.streams.length == n) =
      l.filter (fun x => x.streams.length == n) := by
  induction l with
  | nil => rfl
  | cons h t ih =>
    simp only [sortGroups, insertGroup_filter, ih, List.filter_cons]
    by_cases hh : h.streams.length = n
    · simp [hh]
    · simp [hh]

/-!
## Partition lemmas for the grouping pass (extension side)
-/

theorem extGroupPass_eq_foldAdd (clock : Nat → Nat) (streams : List ExtStream) :
    ∀ i acc, extGroupPass clock i streams acc =
      foldAddExt (extKeyed clock i streams) acc := by
  induction streams with
  | nil => intro i acc; rfl
  | cons s rest ih => intro i acc; simp [extGroupPass, extKeyed, foldAddExt, ih]

theorem streamsWithKey_append (k : String) (ks : List (String × Nat × ExtStream))
    (e : String × Nat × ExtStream) :
    streamsWithKey k (ks ++ [e]) =
      streamsWithKey k ks ++ (if e.1 = k then [e.2.2] else []) := by
  simp only [streamsWithKey, List.filter_append, List.map_append]
  by_cases he : e.1 = k <;> simp [List.filter_cons, he]

theorem addToGroups_of_not_mem (k : String) (s : ExtStream) (cv : Nat)
    (gs : List VideoGroup) (h : k ∉ gs.map fun g => g.groupingKey) :
    addToGroups k s cv gs =
      gs ++ [⟨k, none, s.domain, [s], firstSeenOf cv s.timestamp⟩] := by
  induction gs with
  | nil => rfl
  | cons g rest ih =>
    simp only [List.map_cons, List.mem_cons] at h
    push_neg at h
    simp only [addToGroups, if_neg (Ne.symm h.1)]
    simp [ih h.2]

theorem map_pushStream_of_not_mem (k : String) (s : ExtStream)
    (gs : List VideoGroup) (h : k ∉ gs.map fun g => g.groupingKey) :
    gs.map (pushStream k s) = gs := by
  induction gs with
  | nil => rfl
  | cons g rest ih =>
    simp only [List.map_cons, List.mem_cons] at h
    push_neg at h
    simp only [List.map_cons, pushStream, if_neg (Ne.symm h.1)]
    simp [ih h.2]

theorem addToGroups_of_mem (k : String) (s : ExtStream) (cv : Nat)
    (gs : List VideoGroup) (hnd : (gs.map fun g => g.groupingKey).Nodup)
    (h : k ∈ gs.map fun g => g.groupingKey) :
    addToGroups k s cv gs = gs.map (pushStream k s) := by
  induction gs with
  | nil => simp at h
  | cons g rest ih =>
    simp only [List.map_cons, List.nodup_cons] at hnd
    by_cases hg : g.groupingKey = k
    · have hrest : rest.map (pushStream k s) = rest :=
        map_pushStream_of_not_mem k s rest (hg ▸ hnd.1)
      simp only [addToGroups, if_pos hg, List.map_cons, hrest]
      congr 1
      simp only [pushStream, if_pos hg]
    · simp only [List.map_cons, List.mem_cons] at h
      rcases h with h | h
      · exact absurd h.symm hg
      · simp only [addToGroups, if_neg hg, List.map_cons]
        rw [ih hnd.2 h]
        congr 1
        simp only [pushStream, if_neg hg]

theorem keys_map_pushStream (k : String) (s : ExtStream) (gs : List VideoGroup) :
    (gs.map (pushStream k s)).map (fun g => g.groupingKey) =
      gs.map fun g => g.groupingKey := by
  induction gs with
  | nil => rfl
  | cons g rest ih =>
    simp only [List.map_cons, ih, pushStream]
    split <;> simp_all

theorem groupInv_step (past : List (String × Nat × ExtStream))
    (gs : List VideoGroup) (e : String × Nat × ExtStream)
    (h : GroupInv past gs) :
    GroupInv (past ++ [e]) (addToGroups e.1 e.2.2 e.2.1 gs) := by
  obtain ⟨hnd, hstreams, hkeys⟩ := h
  by_cases hmem : e.1 ∈ gs.map fun g => g.groupingKey
  · rw [addToGroups_of_mem _ _ _ _ hnd hmem]
    refine ⟨by rw [keys_map_pushStream]; exact hnd, ?_, ?_⟩
    · intro g' hg'
      rcases List.mem_map.mp hg' with ⟨g, hg, rfl⟩
      rw [streamsWithKey_append]
      by_cases hk : g.groupingKey = e.1
      · simp only [pushStream, if_pos hk]
        show g.streams ++ [e.2.2] =
          streamsWithKey g.groupingKey past ++
            (if e.1 = g.groupingKey then [e.2.2] else [])
        rw [hstreams g hg, if_pos hk.symm]
      · simp only [pushStream, if_neg hk]
        rw [hstreams g hg, if_neg (Ne.symm hk), List.append_nil]
    · intro e' he'
      rw [keys_map_pushStream]
      rcases List.mem_append.mp he' with he' | he'
      · exact hkeys e' he'
      · simp only [List.mem_singleton] at he'
        exact he' ▸ hmem
  · rw [addToGroups_of_not_mem _ _ _ _ hmem]
    have hswk : streamsWithKey e.1 past = [] := by
      simp only [streamsWithKey, List.map_eq_nil_iff, List.filter_eq_nil_iff]
      intro a ha
      simp only [beq_iff_eq]
      intro hk
      exact hmem (hk ▸ hkeys a ha)
    refine ⟨?_, ?_, ?_⟩
    · simp only [List.map_append, List.map_cons, List.map_nil]
      simp [List.nodup_append, hnd, hmem]
    · intro g' hg'
      rcases List.mem_append.mp hg' with hg' | hg'
      · rw [streamsWithKey_append]
        have hk : g'.groupingKey ≠ e.1 := by
          intro hh
          exact hmem (hh ▸ List.mem_map.mpr ⟨g', hg', rfl⟩)
        rw [hstreams g' hg', if_neg (Ne.symm hk), List.append_nil]
      · simp only [List.mem_singleton] at hg'
        subst hg'
        rw [streamsWithKey_append]
        simp [hswk]
    · intro e' he'
      simp only [List.map_append, List.map_cons, List.map_nil, List.mem_append,
        List.mem_singleton]
      rcases List.mem_append.mp he' with he' | he'
      · exact Or.inl (hkeys e' he')
      · simp only [List.mem_singleton] at he'
        exact Or.inr (by rw [he'])

theorem groupInv_fold (ks : List (String × Nat × ExtStream)) :
    ∀ past gs, GroupInv past gs → GroupInv (past ++ ks) (foldAddExt ks gs) := by
  induction ks with
  | nil => intro past gs h; simpa using h
  | cons e rest ih =>
    intro past gs h
    have := ih (past ++ [e]) (addToGroups e.1 e.2.2 e.2.1 gs) (groupInv_step _ _ _ h)
    simpa [List.append_assoc] using this

theorem groupInv_main (ks : List (String × Nat × ExtStream)) :
    GroupInv ks (foldAddExt ks []) := by
  have h0 : GroupInv [] [] := by
    refine ⟨List.nodup_nil, ?_, ?_⟩ <;> intro x hx <;> simp at hx
  simpa using groupInv_fold ks [] [] h0

theorem addToGroups_sum (k : String) (s : ExtStream) (cv : Nat)
    (gs : List VideoGroup) :
    ((addToGroups k s cv gs).map fun g => g.streams.length).sum =
      (gs.map fun g => g.streams.length).sum + 1 := by
  induction gs with
  | nil => simp [addToGroups]
  | cons g rest ih =>
    simp only [addToGroups]
    split
    · simp [Nat.add_assoc, Nat.add_comm, Nat.add_left_comm]
    · simp [ih]; omega

theorem foldAddExt_sum (ks : List (String × Nat × ExtStream)) :
    ∀ gs, ((foldAddExt ks gs).map fun g => g.streams.length).sum =
      (gs.map fun g => g.streams.length).sum + ks.length := by
  induction ks with
  | nil => intro gs; simp [foldAddExt]
  | cons e rest ih =>
    intro gs
    simp only [foldAddExt, ih, addToGroups_sum, List.length_cons]
    omega

theorem extKeyed_length (clock : Nat → Nat) (streams : List ExtStream) :
    ∀ i, (extKeyed clock i streams).length = streams.length := by
  induction streams with
  | nil => intro i; rfl
  | cons s rest ih => intro i; simp [extKeyed, ih]

/-!
## Partition lemmas for the grouping pass (backend side)
-/

theorem backendGroupPass_eq_foldAdd (clock : Nat → Nat)
    (streams : List BackendStream) :
    ∀ i acc, backendGroupPass clock i streams acc =
      foldAddB (backendKeyed clock i streams) acc := by
  induction streams with
  | nil => intro i acc; rfl
  | cons s rest ih =>
    intro i acc; simp [backendGroupPass, backendKeyed, foldAddB, ih]

theorem streamsWithKeyB_append (k : String) (ks : List (String × BackendStream))
    (e : String × BackendStream) :
    streamsWithKeyB k (ks ++ [e]) =
      streamsWithKeyB k ks ++ (if e.1 = k then [e.2] else []) := by
  simp only [streamsWithKeyB, List.filter_append, List.map_append]
  by_cases he : e.1 = k <;> simp [List.filter_cons, he]

theorem addToGroupsB_of_not_mem (k : String) (s : BackendStream)
    (gs : List BackendGroup) (h : k ∉ gs.map fun g => g.groupingKey) :
    addToGroupsB k s gs = gs ++ [⟨k, none, s.domain, [s]⟩] := by
  induction gs with
  | nil => rfl
  | cons g rest ih =>
    simp only [List.map_cons, List.mem_cons] at h
    push_neg at h
    simp only [addToGroupsB, if_neg (Ne.symm h.1)]
    simp [ih h.2]

theorem map_pushStreamB_of_not_mem (k : String) (s : BackendStream)
    (gs : List BackendGroup) (h : k ∉ gs.map fun g => g.groupingKey) :
    gs.map (pushStreamB k s) = gs := by
  induction gs with
  | nil => rfl
  | cons g rest ih =>
    simp only [List.map_cons, List.mem_cons] at h
    push_neg at h
    simp only [List.map_cons, pushStreamB, if_neg (Ne.symm h.1)]
    simp [ih h.2]

theorem addToGroupsB_of_mem (k : String) (s : BackendStream)
    (gs : List BackendGroup) (hnd : (gs.map fun g => g.groupingKey).Nodup)
    (h : k ∈ gs.map fun g => g.groupingKey) :
    addToGroupsB k s gs = gs.map (pushStreamB k s) := by
  induction gs with
  | nil => simp at h
  | cons g rest ih =>
    simp only [List.map_cons, List.nodup_cons] at hnd
    by_cases hg : g.groupingKey = k
    · have hrest : rest.map (pushStreamB k s) = rest :=
        map_pushStreamB_of_not_mem k s rest (hg ▸ hnd.1)
      simp only [addToGroupsB, if_pos hg, List.map_cons, hrest]
      congr 1
      simp only [pushStreamB, if_pos hg]
    · simp only [List.map_cons, List.mem_cons] at h
      rcases h with h | h
      · exact absurd h.symm hg
      · simp only [addToGroupsB, if_neg hg, List.map_cons]
        rw [ih hnd.2 h]
        congr 1
        simp only [pushStreamB, if_neg hg]

theorem keys_map_pushStreamB (k : String) (s : BackendStream)
    (gs : List BackendGroup) :
    (gs.map (pushStreamB k s)).map (fun g => g.groupingKey) =
      gs.map fun g => g.groupingKey := by
  induction gs with
  | nil => rfl
  | cons g rest ih =>
    simp only [List.map_cons, ih, pushStreamB]
    split <;> simp_all

theorem groupInvB_step (past : List (String × BackendStream))
    (gs : List BackendGroup) (e : String × BackendStream)
    (h : GroupInvB past gs) :
    GroupInvB (past ++ [e]) (addToGroupsB e.1 e.2 gs) := by
  obtain ⟨hnd, hstreams, hkeys⟩ := h
  by_cases hmem : e.1 ∈ gs.map fun g => g.groupingKey
  · rw [addToGroupsB_of_mem _ _ _ hnd hmem]
    refine ⟨by rw [keys_map_pushStreamB]; exact hnd, ?_, ?_⟩
    · intro g' hg'
      rcases List.mem_map.mp hg' with ⟨g, hg, rfl⟩
      rw [streamsWithKeyB_append]
      by_cases hk : g.groupingKey = e.1
      · simp only [pushStreamB, if_pos hk]
        show g.streams ++ [e.2] =
          streamsWithKeyB g.groupingKey past ++
            (if e.1 = g.groupingKey then [e.2] else [])
        rw [hstreams g hg, if_pos hk.symm]
      · simp only [pushStreamB, if_neg hk]
        rw [hstreams g hg, if_neg (Ne.symm hk), List.append_nil]
    · intro e' he'
      rw [keys_map_pushStreamB]
      rcases List.mem_append.mp he' with he' | he'
      · exact hkeys e' he'
      · simp only [List.mem_singleton] at he'
        exact he' ▸ hmem
  · rw [addToGroupsB_of_not_mem _ _ _ hmem]
    have hswk : streamsWithKeyB e.1 past = [] := by
      simp only [streamsWithKeyB, List.map_eq_nil_iff, List.filter_eq_nil_iff]
      intro a ha
      simp only [beq_iff_eq]
      intro hk
      exact hmem (hk ▸ hkeys a ha)
    refine ⟨?_, ?_, ?_⟩
    · simp only [List.map_append, List.map_cons, List.map_nil]
      simp [List.nodup_append, hnd, hmem]
    · intro g' hg'
      rcases List.mem_append.mp hg' with hg' | hg'
      · rw [streamsWithKeyB_append]
        have hk : g'.groupingKey ≠ e.1 := by
          intro hh
          exact hmem (hh ▸ List.mem_map.mpr ⟨g', hg', rfl⟩)
        rw [hstreams g' hg', if_neg (Ne.symm hk), List.append_nil]
      · simp only [List.mem_singleton] at hg'
        subst hg'
        rw [streamsWithKeyB_append]
        simp [hswk]
    · intro e' he'
      simp only [List.map_append, List.map_cons, List.map_nil, List.mem_append,
        List.mem_singleton]
      rcases List.mem_append.mp he' with he' | he'
      · exact Or.inl (hkeys e' he')
      · simp only [List.mem_singleton] at he'
        exact Or.inr (by rw [he'])

theorem groupInvB_fold (ks : List (String × BackendStream)) :
    ∀ past gs, GroupInvB past gs → GroupInvB (past ++ ks) (foldAddB ks gs) := by
  induction ks with
  | nil => intro past gs h; simpa using h
  | cons e rest ih =>
    intro past gs h
    have := ih (past ++ [e]) (addToGroupsB e.1 e.2 gs) (groupInvB_step _ _ _ h)
    simpa [List.append_assoc] using this

theorem groupInvB_main (ks : List (String × BackendStream)) :
    GroupInvB ks (foldAddB ks []) := by
  have h0 : GroupInvB [] [] := by
    refine ⟨List.nodup_nil, ?_, ?_⟩ <;> intro x hx <;> simp at hx
  simpa using groupInvB_fold ks [] [] h0

theorem addToGroupsB_sum (k : String) (s : BackendStream)
    (gs : List BackendGroup) :
    ((addToGroupsB k s gs).map fun g => g.streams.length).sum =
      (gs.map fun g => g.streams.length).sum + 1 := by
  induction gs with
  | nil => simp [addToGroupsB]
  | cons g rest ih =>
    simp only [addToGroupsB]
    split
    · simp [Nat.add_assoc, Nat.add_comm, Nat.add_left_comm]
    · simp [ih]; omega

theorem foldAddB_sum (ks : List (String × BackendStream)) :
    ∀ gs, ((foldAddB ks gs).map fun g => g.streams.length).sum =
      (gs.map fun g => g.streams.length).sum + ks.length := by
  induction ks with
  | nil => intro gs; simp [foldAddB]
  | cons e rest ih =>
    intro gs
    simp only [foldAddB, ih, addToGroupsB_sum, List.length_cons]
    omega

theorem backendKeyed_length (clock : Nat → Nat) (streams : List BackendStream) :
    ∀ i, (backendKeyed clock i streams).length = streams.length := by
  induction streams with
  | nil => intro i; rfl
  | cons s rest ih => intro i; simp [backendKeyed, ih]

/-!
## Transport of grouping facts through name assignment and sorting
-/

theorem keys_map_assignName (gs : List VideoGroup) :
    (gs.map assignName).map (fun g => g.groupingKey) =
      gs.map fun g => g.groupingKey := by
  rw [List.map_map]; rfl

theorem lens_map_assignName (gs : List VideoGroup) :
    (gs.map assignName).map (fun g => g.streams.length) =
      gs.map fun g => g.streams.length := by
  rw [List.map_map]; rfl

theorem keys_map_assignNameB (gs : List BackendGroup) :
    (gs.map assignNameB).map (fun g => g.groupingKey) =
      gs.map fun g => g.groupingKey := by
  rw [List.map_map]; rfl

theorem lens_map_assignNameB (gs : List BackendGroup) :
    (gs.map assignNameB).map (fun g => g.streams.length) =
      gs.map fun g => g.streams.length := by
  rw [List.map_map]; rfl

theorem extAggregate_sum (clock : Nat → Nat) (streams : List ExtStream) :
    ((extAggregate clock streams).map fun g => g.streams.length).sum =
      streams.length := by
  have hperm := (sortGroups_perm ((extGroupPass clock 0 streams []).map assignName)).map
    fun g => g.streams.length
  rw [extAggregate, hperm.sum_eq, lens_map_assignName,
    extGroupPass_eq_foldAdd, foldAddExt_sum]
  simp [extKeyed_length]

theorem extAggregate_keys_nodup (clock : Nat → Nat) (streams : List ExtStream) :
    ((extAggregate clock streams).map fun g => g.groupingKey).Nodup := by
  have hperm := (sortGroups_perm ((extGroupPass clock 0 streams []).map assignName)).map
    fun g => g.groupingKey
  rw [extAggregate]
  refine hperm.symm.nodup ?_
  rw [keys_map_assignName, extGroupPass_eq_foldAdd]
  exact (groupInv_main (extKeyed clock 0 streams)).1

theorem extAggregate_group_streams (clock : Nat → Nat) (streams : List ExtStream) :
    ∀ g ∈ extAggregate clock streams,
      g.streams = streamsWithKey g.groupingKey (extKeyed clock 0 streams) := by
  intro g hg
  rw [extAggregate] at hg
  have hg' := (sortGroups_perm _).subset hg
  rcases List.mem_map.mp hg' with ⟨g0, hg0, rfl⟩
  rw [extGroupPass_eq_foldAdd] at hg0
  exact (groupInv_main (extKeyed clock 0 streams)).2.1 g0 hg0

theorem extAggregate_keys_complete (clock : Nat → Nat) (streams : List ExtStream) :
    ∀ e ∈ extKeyed clock 0 streams,
      e.1 ∈ (extAggregate clock streams).map fun g => g.groupingKey := by
  intro e he
  have h1 := (groupInv_main (extKeyed clock 0 streams)).2.2 e he
  rw [← extGroupPass_eq_foldAdd, ← keys_map_assignName] at h1
  have hperm := (sortGroups_perm ((extGroupPass clock 0 streams []).map assignName)).map
    fun g => g.groupingKey
  rw [extAggregate]
  exact hperm.mem_iff.mpr h1

theorem backendAggregate_sum (clock : Nat → Nat) (streams : List BackendStream) :
    ((backendAggregate clock streams).map fun g => g.streams.length).sum =
      streams.length := by
  rw [backendAggregate, lens_map_assignNameB, backendGroupPass_eq_foldAdd,
    foldAddB_sum]
  simp [backendKeyed_length]

theorem backendAggregate_keys_nodup (clock : Nat → Nat)
    (streams : List BackendStream) :
    ((backendAggregate clock streams).map fun g => g.groupingKey).Nodup := by
  rw [backendAggregate, keys_map_assignNameB, backendGroupPass_eq_foldAdd]
  exact (groupInvB_main (backendKeyed clock 0 streams)).1

theorem backendAggregate_group_streams (clock : Nat → Nat)
    (streams : List BackendStream) :
    ∀ g ∈ backendAggregate clock streams,
      g.streams = streamsWithKeyB g.groupingKey (backendKeyed clock 0 streams) := by
  intro g hg
  rw [backendAggregate] at hg
  rcases List.mem_map.mp hg with ⟨g0, hg0, rfl⟩
  rw [backendGroupPass_eq_foldAdd] at hg0
  exact (groupInvB_main (backendKeyed clock 0 streams)).2.1 g0 hg0

theorem backendAggregate_keys_complete (clock : Nat → Nat)
    (streams : List BackendStream) :
    ∀ e ∈ backendKeyed clock 0 streams,
      e.1 ∈ (backendAggregate clock streams).map fun g => g.groupingKey := by
  intro e he
  have h1 := (groupInvB_main (backendKeyed clock 0 streams)).2.2 e he
  rw [← backendGroupPass_eq_foldAdd, ← keys_map_assignNameB] at h1
  rw [backendAggregate]
  exact h1

/-!
## Clock-independence lemmas
-/

theorem parseURL_empty : parseURL "" = none := by decide

/-- A present, non-empty, parseable `src` keeps the extension key off the
catch path, so the key does not read the clock (or the other stream
fields). -/
theorem getVideoGroupingKey_clock_free (u : String) (h : parseURL u ≠ none)
    (n1 n2 : Nat) (d d' : String) (t t' : Option Nat) :
    getVideoGroupingKey n1 (some ⟨some u, d, t⟩) =
      getVideoGroupingKey n2 (some ⟨some u, d', t'⟩) := by
  rcases hp : parseURL u with _ | parts
  · exact absurd hp h
  · have hu : u ≠ "" := by
      intro h0; subst h0; rw [parseURL_empty] at hp; cases hp
    simp only [getVideoGroupingKey, if_neg hu, extKeyCore, hp, Option.map_some']

/-- The backend key does not read the clock when the URL parses. -/
theorem getVideoGroupingKeyB_clock_free (u : String) (h : parseURL u ≠ none)
    (n1 n2 : Nat) :
    getVideoGroupingKeyB n1 u = getVideoGroupingKeyB n2 u := by
  rcases hp : parseURL u with _ | parts
  · exact absurd hp h
  · simp only [getVideoGroupingKeyB, backendKeyCore, hp, Option.map_some']

/-- A null stream maps to the constant key. -/
theorem getVideoGroupingKey_null (now : Nat) :
    getVideoGroupingKey now none = "unknown-stream" := rfl

/-- A stream with no `src` field maps to the constant key. -/
theorem getVideoGroupingKey_src_none (now : Nat) (s : ExtStream)
    (h : s.src = none) : getVideoGroupingKey now (some s) = "unknown-stream" := by
  obtain ⟨src, d, t⟩ := s
  cases src with
  | none => rfl
  | some u => simp at h

/-- A present but malformed `src` maps to the wall-clock fallback key. -/
theorem getVideoGroupingKey_malformed (now : Nat) (u d : String) (t : Option Nat)
    (hu : parseURL u = none) (hne : u ≠ "") :
    getVideoGroupingKey now (some ⟨some u, d, t⟩) = "unknown-" ++ toString now := by
  simp only [getVideoGroupingKey, if_neg hne, extKeyCore, hu, Option.map_none']

theorem wellKeyed_clock_free (s : ExtStream) (h : WellKeyed s) (n1 n2 : Nat) :
    getVideoGroupingKey n1 (some s) = getVideoGroupingKey n2 (some s) := by
  obtain ⟨src, d, t⟩ := s
  cases src with
  | none => rfl
  | some u =>
    simp only [WellKeyed] at h
    rcases h with h | h
    · subst h; rfl
    · exact getVideoGroupingKey_clock_free u h n1 n2 d d t t

/-!
## Congruence of the aggregation pass over the clock-free projection
-/

theorem addToGroups_sig_congr (k : String) (s : ExtStream) (cv1 cv2 : Nat) :
    ∀ gs1 gs2 : List VideoGroup, gs1.map groupSig = gs2.map groupSig →
      (addToGroups k s cv1 gs1).map groupSig =
        (addToGroups k s cv2 gs2).map groupSig := by
  intro gs1
  induction gs1 with
  | nil =>
    intro gs2 h
    cases gs2 with
    | nil => rfl
    | cons g t => simp at h
  | cons g1 t1 ih =>
    intro gs2 h
    cases gs2 with
    | nil => simp at h
    | cons g2 t2 =>
      simp only [List.map_cons, List.cons.injEq] at h
      obtain ⟨hg, ht⟩ := h
      have hc : g1.groupingKey = g2.groupingKey ∧ g1.name = g2.name ∧
          g1.domain = g2.domain ∧ g1.streams = g2.streams := by
        simpa [groupSig, Prod.mk.injEq] using hg
      by_cases hk : g1.groupingKey = k
      · have hk2 : g2.groupingKey = k := hc.1 ▸ hk
        simp only [addToGroups, if_pos hk, if_pos hk2, List.map_cons,
          List.cons.injEq]
        exact ⟨by simp [groupSig, hc.1, hc.2.1, hc.2.2.1, hc.2.2.2], ht⟩
      · have hk2 : ¬(g2.groupingKey = k) := fun hh => hk (hc.1 ▸ hh)
        simp only [addToGroups, if_neg hk, if_neg hk2, List.map_cons,
          List.cons.injEq]
        exact ⟨hg, ih t2 ht⟩

theorem foldAddExt_sig_congr :
    ∀ ks1 ks2 : List (String × Nat × ExtStream),
      ks1.map keyedProj = ks2.map keyedProj →
    ∀ acc1 acc2 : List VideoGroup, acc1.map groupSig = acc2.map groupSig →
      (foldAddExt ks1 acc1).map groupSig = (foldAddExt ks2 acc2).map groupSig := by
  intro ks1
  induction ks1 with
  | nil =>
    intro ks2 h acc1 acc2 hacc
    cases ks2 with
    | nil => exact hacc
    | cons e t => simp at h
  | cons e1 t1 ih =>
    intro ks2 h acc1 acc2 hacc
    cases ks2 with
    | nil => simp at h
    | cons e2 t2 =>
      simp only [List.map_cons, List.cons.injEq] at h
      obtain ⟨he, ht⟩ := h
      have hk : e1.1 = e2.1 ∧ e1.2.2 = e2.2.2 := by
        simpa [keyedProj, Prod.mk.injEq] using he
      simp only [foldAddExt]
      refine ih t2 ht _ _ ?_
      rw [← hk.1, ← hk.2]
      exact addToGroups_sig_congr e1.1 e1.2.2 e1.2.1 e2.2.1 acc1 acc2 hacc

theorem insertGroup_sig_congr :
    ∀ (g1 g2 : VideoGroup), groupSig g1 = groupSig g2 →
    ∀ l1 l2 : List VideoGroup, l1.map groupSig = l2.map groupSig →
      (insertGroup g1 l1).map groupSig = (insertGroup g2 l2).map groupSig := by
  intro g1 g2 hg l1
  have hgc : g1.groupingKey = g2.groupingKey ∧ g1.name = g2.name ∧
      g1.domain = g2.domain ∧ g1.streams = g2.streams := by
    simpa [groupSig, Prod.mk.injEq] using hg
  have hgs : g1.streams = g2.streams := hgc.2.2.2
  induction l1 with
  | nil =>
    intro l2 h
    cases l2 with
    | nil => simpa [insertGroup] using hg
    | cons h2 t2 => simp at h
  | cons h1 t1 ih =>
    intro l2 h
    cases l2 with
    | nil => simp at h
    | cons h2 t2 =>
      simp only [List.map_cons, List.cons.injEq] at h
      obtain ⟨hh, ht⟩ := h
      have hhc : h1.groupingKey = h2.groupingKey ∧ h1.name = h2.name ∧
          h1.domain = h2.domain ∧ h1.streams = h2.streams := by
        simpa [groupSig, Prod.mk.injEq] using hh
      have hhs : h1.streams = h2.streams := hhc.2.2.2
      by_cases hcmp : h1.streams.length > g1.streams.length
      · have hcmp2 : h2.streams.length > g2.streams.length := by
          rw [← hhs, ← hgs]; exact hcmp
        simp only [insertGroup, if_pos hcmp, if_pos hcmp2, List.map_cons,
          List.cons.injEq]
        exact ⟨hh, ih t2 ht⟩
      · have hcmp2 : ¬(h2.streams.length > g2.streams.length) := by
          rw [← hhs, ← hgs]; exact hcmp
        simp only [insertGroup, if_neg hcmp, if_neg hcmp2, List.map_cons,
          List.cons.injEq]
        exact ⟨hg, hh, ht⟩

theorem sortGroups_sig_congr :
    ∀ l1 l2 : List VideoGroup, l1.map groupSig = l2.map groupSig →
      (sortGroups l1).map groupSig = (sortGroups l2).map groupSig := by
  intro l1
  induction l1 with
  | nil =>
    intro l2 h
    cases l2 with
    | nil => rfl
    | cons h2 t2 => simp at h
  | cons h1 t1 ih =>
    intro l2 h
    cases l2 with
    | nil => simp at h
    | cons h2 t2 =>
      simp only [List.map_cons, List.cons.injEq] at h
      obtain ⟨hh, ht⟩ := h
      simp only [sortGroups]
      exact insertGroup_sig_congr h1 h2 hh _ _ (ih t2 ht)

theorem assignName_sig_congr (g1 g2 : VideoGroup)
    (h : groupSig g1 = groupSig g2) :
    groupSig (assignName g1) = groupSig (assignName g2) := by
  have hc : g1.groupingKey = g2.groupingKey ∧ g1.name = g2.name ∧
      g1.domain = g2.domain ∧ g1.streams = g2.streams := by
    simpa [groupSig, Prod.mk.injEq] using h
  simp [groupSig, assignName, hc.1, hc.2.2.1, hc.2.2.2]

theorem map_assignName_sig_congr :
    ∀ gs1 gs2 : List VideoGroup, gs1.map groupSig = gs2.map groupSig →
      (gs1.map assignName).map groupSig = (gs2.map assignName).map groupSig := by
  intro gs1
  induction gs1 with
  | nil =>
    intro gs2 h
    cases gs2 with
    | nil => rfl
    | cons g t => simp at h
  | cons g1 t1 ih =>
    intro gs2 h
    cases gs2 with
    | nil => simp at h
    | cons g2 t2 =>
      simp only [List.map_cons, List.cons.injEq] at h
      obtain ⟨hg, ht⟩ := h
      simp only [List.map_cons, List.cons.injEq]
      exact ⟨assignName_sig_congr g1 g2 hg, ih t2 ht⟩

theorem extKeyed_proj_congr (c1 c2 : Nat → Nat) (streams : List ExtStream)
    (h : ∀ s ∈ streams, WellKeyed s) :
    ∀ i, (extKeyed c1 i streams).map keyedProj =
      (extKeyed c2 i streams).map keyedProj := by
  induction streams with
  | nil => intro i; rfl
  | cons s rest ih =>
    intro i
    simp only [extKeyed, List.map_cons, List.cons.injEq]
    refine ⟨?_, ih (fun x hx => h x (List.mem_cons_of_mem s hx)) (i + 1)⟩
    simp only [keyedProj]
    rw [wellKeyed_clock_free s (h s (List.mem_cons_self s rest)) (c1 i) (c2 i)]

/-- A wall-clock fallback key never equals the key of the well-formed
stream in the isolation example. -/
theorem unknown_append_ne (t : String) :
    "unknown-" ++ t ≠ "cdn.example.com-abc12345" := by
  intro h
  have hd := congrArg String.data h
  rw [String.data_append] at hd
  have h8 : "unknown-".data = ['u', 'n', 'k', 'n', 'o', 'w', 'n', '-'] := rfl
  have h9 : "cdn.example.com-abc12345".data =
      ['c', 'd', 'n', '.', 'e', 'x', 'a', 'm', 'p', 'l', 'e', '.', 'c', 'o', 'm',
       '-', 'a', 'b', 'c', '1', '2', '3', '4', '5'] := rfl
  rw [h8, h9] at hd
  simp at hd

/-!
## Claims
-/

/-- C1: the two duplicated `getVideoGroupingKey` implementations are not
extensionally equal: on `https://a.com/ab/x.m3u8?t=1234567890` the
extension's strategy 4 (timestamp grouping, absent from the backend)
returns `a.com-12345678` while the backend falls through to
`a.com-ab`. -/
theorem claim_C1 :
    getVideoGroupingKey 0
        (some ⟨some "https://a.com/ab/x.m3u8?t=1234567890", "a.com", none⟩) =
      "a.com-12345678" ∧
    getVideoGroupingKeyB 0 "https://a.com/ab/x.m3u8?t=1234567890" = "a.com-ab" ∧
    ("a.com-12345678" : String) ≠ "a.com-ab" := by decide

/-- C2 (counterexample): a visible 50×500 element — both dimensions
non-zero — is still categorized `hidden`, because the code also routes
`isBackground` (width < 100 or height < 100) to `hidden`. -/
theorem claim_C2_counterexample :
    categorizeVideo ⟨1000, 800⟩ (some ⟨⟨50, 500, 0, 0⟩, "", "", ""⟩)
        ⟨true, true, true, false⟩ = "hidden" ∧
    (⟨true, true, true, false⟩ : VideoMetadata).isVisible = true ∧
    ((⟨⟨50, 500, 0, 0⟩, "", "", ""⟩ : DomElement).rect.width ≠ 0) ∧
    ((⟨⟨50, 500, 0, 0⟩, "", "", ""⟩ : DomElement).rect.height ≠ 0) := by decide

/-- C2 (amended): `categorizeVideo` returns `hidden` exactly when the
element is not visible, or its width is below 100, or its height is
below 100 (zero dimensions included); visible elements with both
dimensions at least 100 never classify as `hidden`. -/
theorem claim_C2 (vp : Viewport) (el : DomElement) (md : VideoMetadata) :
    categorizeVideo vp (some el) md = "hidden" ↔
      (md.isVisible = false ∨ el.rect.width < 100 ∨ el.rect.height < 100) := by
  simp only [categorizeVideo]
  split_ifs with h1 h2 h3 h4 h5 h6
  · simp only [true_iff]
    simp only [Bool.or_eq_true, Bool.not_eq_true', decide_eq_true_eq] at h1
    rcases h1 with ((hv | hw0) | hh0) | hsmall
    · exact Or.inl hv
    · exact Or.inr (Or.inl (by rw [hw0]; norm_num))
    · exact Or.inr (Or.inr (by rw [hh0]; norm_num))
    · rcases hsmall with hw | hh
      · exact Or.inr (Or.inl hw)
      · exact Or.inr (Or.inr hh)
  all_goals
    refine iff_of_false (by decide) fun hr => h1 ?_
    simp only [Bool.or_eq_true, Bool.not_eq_true', decide_eq_true_eq]
    rcases hr with hv | hw | hh
    · exact Or.inl (Or.inl (Or.inl hv))
    · exact Or.inr (Or.inl hw)
    · exact Or.inr (Or.inr hh)

/-- C3 (counterexample): the backend aggregation does not sort: on input
with group counts `[1, 3, 2]` in first-seen order it returns the groups
in that order, not `[3, 2, 1]`. -/
theorem claim_C3_counterexample :
    ((backendAggregate (fun _ => 0) exSortStreamsB).map fun g => g.streams.length) =
      [1, 3, 2] ∧
    ([1, 3, 2] : List Nat) ≠ [3, 2, 1] := by decide

/-- C3 (amended): the extension's aggregate output is sorted descending
by `streams.length`, the sort is stable (groups of any fixed count keep
their first-seen order), and the `[1, 3, 2]` example comes out as
`[3, 2, 1]`; the backend returns groups unsorted, in first-seen order. -/
theorem claim_C3 :
    (∀ (clock : Nat → Nat) (streams : List ExtStream),
      (extAggregate clock streams).Pairwise
        fun a b => b.streams.length ≤ a.streams.length) ∧
    (∀ (l : List VideoGroup) (n : Nat),
      (sortGroups l).filter (fun g => g.streams.length == n) =
        l.filter (fun g => g.streams.length == n)) ∧
    ((extAggregate (fun _ => 0) exSortStreams).map fun g => g.streams.length) =
      [3, 2, 1] := by
  refine ⟨?_, sortGroups_filter, by decide⟩
  intro clock streams
  rw [extAggregate]
  exact sortGroups_pairwise _

/-- C5: both aggregation passes partition their input: stream counts sum
to the input length, group keys are pairwise distinct, each group holds
exactly the input streams carrying its key in discovery order, and every
input stream's key owns a group. -/
theorem claim_C5 (streams : List ExtStream) (bstreams : List BackendStream)
    (clock clockB : Nat → Nat) :
    (((extAggregate clock streams).map fun g => g.streams.length).sum =
      streams.length) ∧
    ((extAggregate clock streams).map fun g => g.groupingKey).Nodup ∧
    (∀ g ∈ extAggregate clock streams,
      g.streams = streamsWithKey g.groupingKey (extKeyed clock 0 streams)) ∧
    (∀ e ∈ extKeyed clock 0 streams,
      e.1 ∈ (extAggregate clock streams).map fun g => g.groupingKey) ∧
    (((backendAggregate clockB bstreams).map fun g => g.streams.length).sum =
      bstreams.length) ∧
    ((backendAggregate clockB bstreams).map fun g => g.groupingKey).Nodup ∧
    (∀ g ∈ backendAggregate clockB bstreams,
      g.streams = streamsWithKeyB g.groupingKey (backendKeyed clockB 0 bstreams)) ∧
    (∀ e ∈ backendKeyed clockB 0 bstreams,
      e.1 ∈ (backendAggregate clockB bstreams).map fun g => g.groupingKey) :=
  ⟨extAggregate_sum clock streams, extAggregate_keys_nodup clock streams,
   extAggregate_group_streams clock streams, extAggregate_keys_complete clock streams,
   backendAggregate_sum clockB bstreams, backendAggregate_keys_nodup clockB bstreams,
   backendAggregate_group_streams clockB bstreams,
   backendAggregate_keys_complete clockB bstreams⟩

/-- C5 (witness): the key of the first example stream owns a group in the
aggregated output. -/
theorem claim_C5_witness :
    ("a.com-aaaaaaaa" : String) ∈
      (extAggregate (fun _ => 0) exSortStreams).map fun g => g.groupingKey := by
  have h := (claim_C5 exSortStreams exSortStreamsB (fun _ => 0) (fun _ => 0)).2.2.2.1
  exact h ("a.com-aaaaaaaa", 0, exStreamA) (by decide)

/-- C7: for any URL the parser accepts, both grouping-key functions
return the same key on repeated calls — the result depends only on the
URL string, not on the clock or the other stream fields. -/
theorem claim_C7 (u : String) (h : parseURL u ≠ none) (n1 n2 : Nat)
    (d d' : String) (t t' : Option Nat) :
    getVideoGroupingKey n1 (some ⟨some u, d, t⟩) =
      getVideoGroupingKey n2 (some ⟨some u, d', t'⟩) ∧
    getVideoGroupingKeyB n1 u = getVideoGroupingKeyB n2 u :=
  ⟨getVideoGroupingKey_clock_free u h n1 n2 d d' t t',
   getVideoGroupingKeyB_clock_free u h n1 n2⟩

/-- C7 (witness): determinism instantiated on a concrete well-formed
URL. -/
theorem claim_C7_witness :
    parseURL "https://cdn.x.com/abc12345/720p/chunklist.m3u8" ≠ none ∧
    getVideoGroupingKey 1
        (some ⟨some "https://cdn.x.com/abc12345/720p/chunklist.m3u8", "a", some 7⟩) =
      getVideoGroupingKey 2
        (some ⟨some "https://cdn.x.com/abc12345/720p/chunklist.m3u8", "b", none⟩) := by
  have hp : parseURL "https://cdn.x.com/abc12345/720p/chunklist.m3u8" ≠ none := by
    decide
  exact ⟨hp, (claim_C7 _ hp 1 2 "a" "b" (some 7) none).1⟩

/-- C8: the 720p and 1080p variant URLs both key to
`cdn.x.com-abc12345` (strategy 1, explicit long-id match) in the
extension and the backend, and aggregate into one two-stream group. -/
theorem claim_C8 :
    getVideoGroupingKey 0
        (some ⟨some "https://cdn.x.com/abc12345/720p/chunklist.m3u8", "cdn.x.com", none⟩) =
      "cdn.x.com-abc12345" ∧
    getVideoGroupingKey 0
        (some ⟨some "https://cdn.x.com/abc12345/1080p/chunklist.m3u8", "cdn.x.com", none⟩) =
      "cdn.x.com-abc12345" ∧
    getVideoGroupingKeyB 0 "https://cdn.x.com/abc12345/720p/chunklist.m3u8" =
      "cdn.x.com-abc12345" ∧
    getVideoGroupingKeyB 0 "https://cdn.x.com/abc12345/1080p/chunklist.m3u8" =
      "cdn.x.com-abc12345" ∧
    ((extAggregate (fun _ => 0)
        [⟨some "https://cdn.x.com/abc12345/720p/chunklist.m3u8", "cdn.x.com", some 1⟩,
         ⟨some "https://cdn.x.com/abc12345/1080p/chunklist.m3u8", "cdn.x.com", some 2⟩]).map
        fun g => (g.groupingKey, g.streams.length)) = [("cdn.x.com-abc12345", 2)] := by
  decide

/-- C9: name extraction for key `example.com-xyz` with no streams yields
`xyz` in both implementations and never throws; in general, when no
segment of the first stream qualifies, the extension falls back to the
cleaned key, or the literal `Video Stream` when that cleanup is
empty. -/
theorem claim_C9 :
    extractVideoNameFromGroupingKey "example.com-xyz" [] = "xyz" ∧
    extractVideoNameFromGroupingKeyB "example.com-xyz" [] = "xyz" ∧
    ∀ (key : String) (streams : List ExtStream),
      (∀ s, streams.head? = some s →
        extNameFromSegments (extStreamSegments s) = none) →
      extractVideoNameFromGroupingKey key streams =
        (if (cleanSegment (stripDomainDash key.toList)).isEmpty then "Video Stream"
         else String.mk (cleanSegment (stripDomainDash key.toList))) := by
  refine ⟨by decide, by decide, ?_⟩
  intro key streams h
  cases streams with
  | nil => rfl
  | cons s rest =>
    have hs := h s rfl
    simp only [extractVideoNameFromGroupingKey, List.map_cons, hs]

/-- C9 (witness): the key-fallback branch on a fresh concrete key. -/
theorem claim_C9_witness :
    extractVideoNameFromGroupingKey "cdn.host-my_video" [] = "my video" := by
  have h := claim_C9.2.2 "cdn.host-my_video" [] (fun s hs => Option.noConfusion hs)
  rw [h]; decide

/-- C10: a null stream, or a stream with no `src`, always keys to the
constant `unknown-stream`, so all such streams collapse into one shared
group — unlike a malformed-but-present URL, whose timestamp fallback key
differs from `unknown-stream`. -/
theorem claim_C10 :
    (∀ now : Nat, getVideoGroupingKey now none = "unknown-stream") ∧
    (∀ (now : Nat) (s : ExtStream), s.src = none →
      getVideoGroupingKey now (some s) = "unknown-stream") ∧
    ((extAggregate (fun _ => 5) [⟨none, "d", some 1⟩, ⟨none, "e", some 2⟩]).map
        fun g => (g.groupingKey, g.streams.length)) = [("unknown-stream", 2)] ∧
    getVideoGroupingKey 123 (some ⟨some "not a url", "x", none⟩) = "unknown-123" ∧
    ("unknown-123" : String) ≠ "unknown-stream" :=
  ⟨fun _ => rfl, fun now s h => getVideoGroupingKey_src_none now s h,
   by decide, by decide, by decide⟩

/-- C10 (witness): the missing-`src` rule applied at a concrete
stream. -/
theorem claim_C10_witness :
    getVideoGroupingKey 9 (some ⟨none, "dom", some 4⟩) = "unknown-stream" :=
  claim_C10.2.1 9 ⟨none, "dom", some 4⟩ rfl

/-- C6 (counterexample): with a malformed stream in the list, two runs
of the aggregation at different times disagree even on the displayed
fields — the fallback key embeds `Date.now()`. -/
theorem claim_C6_counterexample :
    (extAggregate (fun _ => 1) [⟨some "not a url", "x", some 1⟩]).map groupSig ≠
      (extAggregate (fun _ => 2) [⟨some "not a url", "x", some 1⟩]).map groupSig := by
  decide

/-- C6 (amended): when every stream's `src` is absent, empty, or
parseable, re-running the aggregation at any other time yields groups
with identical keys, names, domains, and member streams in the same
order (only the wall-clock path of malformed URLs breaks this). -/
theorem claim_C6 (streams : List ExtStream) (c1 c2 : Nat → Nat)
    (h : ∀ s ∈ streams, WellKeyed s) :
    (extAggregate c1 streams).map groupSig =
      (extAggregate c2 streams).map groupSig := by
  rw [extAggregate, extAggregate, extGroupPass_eq_foldAdd,
    extGroupPass_eq_foldAdd]
  exact sortGroups_sig_congr _ _ (map_assignName_sig_congr _ _
    (foldAddExt_sig_congr _ _ (extKeyed_proj_congr c1 c2 streams h 0) [] [] rfl))

/-- C6 (witness): clock-independence instantiated on a parseable
stream. -/
theorem claim_C6_witness :
    (extAggregate (fun _ => 1) [exStreamA]).map groupSig =
      (extAggregate (fun _ => 2) [exStreamA]).map groupSig := by
  refine claim_C6 [exStreamA] (fun _ => 1) (fun _ => 2) ?_
  intro s hs
  simp only [List.mem_singleton] at hs
  subst hs
  simp only [WellKeyed, exStreamA]
  exact Or.inr (by decide)

/-- C4 (counterexample): two distinct malformed URLs keyed in the same
millisecond receive the same fallback key and land in one two-stream
group — the fallback key is not collision-free and the malformed stream
is not always a singleton. -/
theorem claim_C4_counterexample :
    ((extAggregate (fun _ => 123)
        [⟨some "not a url", "x", some 1⟩, ⟨some "nope", "y", some 2⟩]).map
        fun g => (g.groupingKey, g.streams.length)) = [("unknown-123", 2)] ∧
    getVideoGroupingKey 123 (some ⟨some "not a url", "x", some 1⟩) =
      getVideoGroupingKey 123 (some ⟨some "nope", "y", some 2⟩) := by
  decide

/-- C4 (amended): a malformed URL keys to `unknown-{now}` without
throwing, and it never prevents the other stream of the isolation
example from being grouped: for every clock the example aggregates into
exactly two singleton groups. -/
theorem claim_C4 :
    (∀ (now : Nat) (u d : String) (t : Option Nat),
      parseURL u = none → u ≠ "" →
      getVideoGroupingKey now (some ⟨some u, d, t⟩) = "unknown-" ++ toString now) ∧
    (∀ clock : Nat → Nat,
      (extAggregate clock exIsoStreams).map
          (fun g => (g.groupingKey, g.streams.length)) =
        [("unknown-" ++ toString (clock 0), 1), ("cdn.example.com-abc12345", 1)]) := by
  constructor
  · exact fun now u d t hu hne => getVideoGroupingKey_malformed now u d t hu hne
  · intro clock
    have hk1 : getVideoGroupingKey (clock 0) (some exIsoMalformed) =
        "unknown-" ++ toString (clock 0) :=
      getVideoGroupingKey_malformed (clock 0) "not a url" "x" (some 1)
        (by decide) (by decide)
    have hk2 : getVideoGroupingKey (clock 1) (some exIsoWellFormed) =
        "cdn.example.com-abc12345" := by
      have hc : extKeyCore "https://cdn.example.com/abc12345/master.m3u8" =
          some ("cdn.example.com-abc12345".toList) := by decide
      simp only [exIsoWellFormed, getVideoGroupingKey, hc]
      decide
    rw [extAggregate, extGroupPass_eq_foldAdd, exIsoStreams]
    simp only [extKeyed, hk1, hk2, foldAddExt, addToGroups]
    rw [if_neg (unknown_append_ne (toString (clock 0)))]
    simp only [sortGroups, insertGroup, List.map_cons, List.map_nil]
    rw [if_neg (by simp [assignName])]
    simp [assignName, exIsoMalformed, exIsoWellFormed, firstSeenOf]

/-- C4 (witness): the malformed-URL fallback at a concrete clock
value. -/
theorem claim_C4_witness :
    parseURL "not a url" = none ∧
    getVideoGroupingKey 77 (some ⟨some "not a url", "x", some 1⟩) =
      "unknown-" ++ toString 77 := by
  exact ⟨by decide, claim_C4.1 77 "not a url" "x" (some 1) (by decide) (by decide)⟩

end Click2Save
